import Mathlib

/-!
Verification of the commentstats scanner/renderer core.

The development shallowly embeds the program's data model and core
algorithms:

* `commit_stats` / `applyDelta` / `applyDeltas` embed the snapshot builder
  of `src/scan.rs` (`commit_stats`, lines 135-212): starting from the
  previous snapshot's file mapping it applies every delta of the tree diff,
  re-reading and re-classifying blobs for `Added`/`Modified`, erasing for
  `Deleted`, and moving/duplicating records for `Renamed`/`Copied`.
* `scanChunk` embeds the per-chunk loop of `run` (`src/scan.rs`, lines
  84-95) that threads `previous_entry`/`previous_tree` through the chunk.
* `chunkSize`/`chunkCount`/`chunkName` embed the chunking arithmetic and
  the `format!("stats-{:03}", i)` entry naming of `run`.
* `Entry.filtered`, `filteredSums`, `decodeChunk`, `load_data`, `loadPar`
  embed the archive reader/aggregator of `src/render.rs` (`load_data`,
  lines 95-150) including its `try_fold`/`try_reduce` parallel structure.

External collaborators are modelled as parameters: the language classifier
(tokei's `LanguageType::from_path` plus `parse_from_slice`/`summarise`) is a
`Classifier` record, git trees are finite maps from paths to blob contents
(all tree entries are blobs, so the `ObjectType::Blob` guard of the source
is always satisfied), and the tree diff handed to the builder is an explicit
delta list, constrained by `ValidDiff` where a theorem needs it to relate
two trees.
-/

namespace CommentStats

/-- File paths, as produced by `delta.new_file().path()` etc. -/
abbrev Path := String

/-- Language tags (tokei `LanguageType`), kept abstract as strings. -/
abbrev Lang := String

/-- Blob contents (`blob.content()`), kept abstract as strings. -/
abbrev Content := String

/-- Flattened line statistics: tokei `CodeStats` after `summarise()`. -/
structure CodeStats where
  code : Nat
  comments : Nat
  blanks : Nat
  deriving DecidableEq, Repr

/-- One file's record in a snapshot (`EntryFile` of `src/models.rs`). -/
structure EntryFile where
  language : Lang
  statistics : CodeStats
  deriving DecidableEq, Repr

/-- The snapshot's file mapping (`HashMap<PathBuf, EntryFile>`). -/
abbrev Files := Finmap fun _ : Path => EntryFile

/-- A git tree, modelled as a finite map from blob paths to blob contents. -/
abbrev TreeM := Finmap fun _ : Path => Content

/-- A `chrono::DateTime<FixedOffset>`: the UTC instant in seconds plus the
fixed offset in seconds.  `FixedOffset::east(o).from_utc_datetime(n)` yields
`⟨n, o⟩`. -/
structure DateTimeFO where
  utcSeconds : Int
  offsetSeconds : Int
  deriving DecidableEq, Repr

/-- One snapshot (`Entry` of `src/models.rs`). -/
structure Entry where
  timestamp : DateTimeFO
  files : Files
  deriving DecidableEq

/-- The external language classifier, a black box in the spec: `classify`
models `LanguageType::from_path(name, &config)` applied to a file name, and
`parse` models `lang.parse_from_slice(content, &config).summarise()`. -/
structure Classifier where
  classify : String → Option Lang
  parse : Lang → Content → CodeStats

/-- The file-name component of a path, as returned by `item.name()`:
the part after the last `/`. -/
def fileName (p : Path) : String :=
  ⟨p.data.foldl (fun acc c => if c = '/' then [] else acc ++ [c]) []⟩

/-- One tree-diff delta (`git2::Delta` status with its old/new paths). -/
inductive DeltaOp where
  | added (p : Path)
  | modified (p : Path)
  | deleted (p : Path)
  | renamed (old new : Path)
  | copied (old new : Path)
  deriving DecidableEq, Repr

/-- The paths a delta mentions (its old and new file paths; for
`Added`/`Modified`/`Deleted` both coincide). -/
def DeltaOp.mentions : DeltaOp → List Path
  | .added p => [p]
  | .modified p => [p]
  | .deleted p => [p]
  | .renamed o n => [o, n]
  | .copied o n => [o, n]

/-- Whether a delta is of kind `Added`, `Modified` or `Deleted` — the kinds
`diff_tree_to_tree` emits with default options (the code never calls
`find_similar`, so rename/copy detection is off). -/
def DeltaOp.isAMD : DeltaOp → Prop
  | .added _ => True
  | .modified _ => True
  | .deleted _ => True
  | .renamed _ _ => False
  | .copied _ _ => False

/-- Errors of the scan path.  `treePathMissing` models the panic of
`tree.get_path(...).unwrap()`; `snapshotPathMissing` models the panics of
`entry.files.remove(...).unwrap()` / `entry.files.get(...).unwrap()` on
`Renamed`/`Copied` deltas (the spec's `InvariantViolation`). -/
inductive ScanErr where
  | treePathMissing (p : Path)
  | snapshotPathMissing (p : Path)
  deriving DecidableEq, Repr

/-- One iteration of the delta loop of `commit_stats` (`src/scan.rs`,
lines 155-207).  `tree` is the commit's own tree, from which
`Added`/`Modified` re-read the blob. -/
def applyDelta (cl : Classifier) (tree : TreeM) (files : Files) :
    DeltaOp → Except ScanErr Files
  | .added p | .modified p =>
    -- let item = tree.get_path(delta.new_file().path().unwrap()).unwrap();
    match tree.lookup p with
    | none => .error (.treePathMissing p)
    | some content =>
      -- let lang = LanguageType::from_path(item.name(), &config);
      match cl.classify (fileName p) with
      | some lang =>
        -- parse, summarise, and upsert at the new path
        .ok (files.insert p ⟨lang, cl.parse lang content⟩)
      | none => .ok files
  | .deleted p =>
    -- entry.files.remove(delta.old_file().path().unwrap());
    .ok (files.erase p)
  | .renamed o n =>
    -- let old = entry.files.remove(old_path).unwrap(); insert(new_path, old)
    match files.lookup o with
    | none => .error (.snapshotPathMissing o)
    | some v => .ok ((files.erase o).insert n v)
  | .copied o n =>
    -- let old = entry.files.get(old_path).unwrap().clone(); insert(new_path, old)
    match files.lookup o with
    | none => .error (.snapshotPathMissing o)
    | some v => .ok (files.insert n v)

/-- The whole delta loop of `commit_stats`: left-to-right application of
every delta of the diff. -/
def applyDeltas (cl : Classifier) (tree : TreeM) (files : Files) :
    List DeltaOp → Except ScanErr Files
  | [] => .ok files
  | d :: ds =>
    match applyDelta cl tree files d with
    | .ok files' => applyDeltas cl tree files' ds
    | .error e => .error e

/-- The data of one commit the builder consumes: authoring time
(`commit.time().seconds()` and `.offset_minutes()`) and the commit's tree. -/
structure CommitInfo where
  timeSeconds : Int
  offsetMinutes : Int
  tree : TreeM

/-- The snapshot builder `commit_stats` of `src/scan.rs` (lines 135-212).
`diffDeltas` stands for the delta list of
`repo.diff_tree_to_tree(previous_tree.as_ref(), Some(&tree), None)`;
theorems that need it to really relate the previous tree to `c.tree`
constrain it with `ValidDiff`.  Returns the new snapshot and the commit's
tree (seed for the next call). -/
def commit_stats (cl : Classifier) (c : CommitInfo)
    (previous_entry : Option Entry) (diffDeltas : List DeltaOp) :
    Except ScanErr (Entry × TreeM) :=
  -- FixedOffset::east(offset_minutes * 60).from_utc_datetime(seconds)
  let time : DateTimeFO := ⟨c.timeSeconds, c.offsetMinutes * 60⟩
  let files0 := (previous_entry.map Entry.files).getD ∅
  match applyDeltas cl c.tree files0 diffDeltas with
  | .ok fs => .ok ({ timestamp := time, files := fs }, c.tree)
  | .error e => .error e

/-- The per-chunk loop of `run` (`src/scan.rs`, lines 84-95): thread
`previous_entry` through `commit_stats` over the chunk's commits, collecting
the produced snapshots in order.  Each commit comes with the delta list of
its diff against the immediately preceding tree (`None`/empty for the first
commit of the chunk). -/
def scanChunk (cl : Classifier) :
    List (CommitInfo × List DeltaOp) → Option Entry → Except ScanErr (List Entry)
  | [], _ => .ok []
  | (c, D) :: rest, prevE =>
    match commit_stats cl c prevE D with
    | .error e => .error e
    | .ok (e, _tree) =>
      match scanChunk cl rest (some e) with
      | .error err => .error err
      | .ok es => .ok (e :: es)

/-- The record the builder would compute for path `p` of tree `t` when the
path arrives as an `Added` delta: classify by file name, parse the blob. -/
def scratchRecord (cl : Classifier) (t : TreeM) (p : Path) : Option EntryFile :=
  (t.lookup p).bind fun c =>
    (cl.classify (fileName p)).map fun lang => ⟨lang, cl.parse lang c⟩

/-- Insert `f p` at `p` when present, else leave the map alone. -/
def insertSome (f : Path → Option EntryFile) (m : Files) (p : Path) : Files :=
  match f p with
  | some r => m.insert p r
  | none => m

/-- Lexicographic order on paths via their character lists (the traversal
order of the tree; the builder's result does not depend on it since tree
keys are distinct). -/
def keyLE (a b : Path) : Prop := a.data ≤ b.data

instance : DecidableRel keyLE := fun a b => inferInstanceAs (Decidable (a.data ≤ b.data))

instance : IsTrans Path keyLE := ⟨fun _ _ _ hab hbc => le_trans hab hbc⟩

instance : IsAntisymm Path keyLE :=
  ⟨fun a b hab hba => by
    cases a; cases b
    exact congrArg String.mk (le_antisymm hab hba)⟩

instance : IsTotal Path keyLE := ⟨fun a b => le_total a.data b.data⟩

/-- Sort a multiset of paths into a list, in `keyLE` order (insertion sort,
so the definition computes by structural recursion). -/
def sortKeysM (m : Multiset Path) : List Path :=
  Quot.liftOn m (fun l => l.insertionSort keyLE) fun l₁ l₂ h =>
    List.eq_of_perm_of_sorted
      (((l₁.perm_insertionSort keyLE).trans h).trans (l₂.perm_insertionSort keyLE).symm)
      (l₁.sorted_insertionSort keyLE) (l₂.sorted_insertionSort keyLE)

/-- The key list of a tree, in `keyLE` order. -/
def sortKeys (s : Finset Path) : List Path := sortKeysM s.val

/-- The snapshot mapping obtained by building a commit from scratch
(previous snapshot and tree both `None`): every blob of the tree is treated
as `Added` and classified by its file name. -/
def fromScratch (cl : Classifier) (t : TreeM) : Files :=
  (sortKeys t.keys).foldl (insertSome (scratchRecord cl t)) ∅

/-- Consistency of one delta with the tree transition `t1 → t2`, following
git tree-diff semantics: an `Added` path is new in `t2`, a `Deleted` path
vanishes, a `Modified` path exists on both sides, a `Renamed` path moves
(identical content, source gone from `t2`, target new), a `Copied` path is
duplicated (identical content, source kept unchanged, target new). -/
def DeltaOp.consistent (t1 t2 : TreeM) : DeltaOp → Prop
  | .added p => t1.lookup p = none ∧ (t2.lookup p).isSome
  | .modified p => (t1.lookup p).isSome ∧ (t2.lookup p).isSome
  | .deleted p => (t1.lookup p).isSome ∧ t2.lookup p = none
  | .renamed o n =>
      t1.lookup n = none ∧ t2.lookup o = none ∧
      ∃ c, t1.lookup o = some c ∧ t2.lookup n = some c
  | .copied o n =>
      t1.lookup n = none ∧ t1.lookup o = t2.lookup o ∧
      ∃ c, t1.lookup o = some c ∧ t2.lookup n = some c

/-- A delta list is a valid tree diff from `t1` to `t2` when every delta is
consistent with the transition and every path whose content differs between
the trees is mentioned by some delta. -/
def ValidDiff (t1 t2 : TreeM) (D : List DeltaOp) : Prop :=
  (∀ d ∈ D, d.consistent t1 t2) ∧
  (∀ p, t1.lookup p ≠ t2.lookup p → ∃ d ∈ D, p ∈ d.mentions)

/-! ### Chunking and archive-entry naming (`run` of `src/scan.rs`) -/

/-- `const CHUNK_AMOUNT: usize = 1000;` -/
def CHUNK_AMOUNT : Nat := 1000

/-- `const MIN_CHUNK_SIZE: usize = 1000;` -/
def MIN_CHUNK_SIZE : Nat := 1000

/-- `let chunk_size = MIN_CHUNK_SIZE.max(oids.len() / CHUNK_AMOUNT);` -/
def chunkSize (n : Nat) : Nat := max MIN_CHUNK_SIZE (n / CHUNK_AMOUNT)

/-- The number of chunks `oids.par_chunks(chunk_size)` yields for a history
of `n` commits: `⌈n / chunkSize n⌉`. -/
def chunkCount (n : Nat) : Nat := (n + chunkSize n - 1) / chunkSize n

/-- The archive-entry name of chunk `i`: `format!("stats-{:03}", i)`
(zero-padded to a minimum width of three digits). -/
def chunkName (i : Nat) : String :=
  "stats-" ++ String.mk (List.replicate (3 - (Nat.repr i).length) '0') ++ Nat.repr i

/-! ### Archive reader / aggregator (`load_data` of `src/render.rs`) -/

/-- One aggregated point (`SimpleEntry` of `src/render.rs`):
`entry.timestamp.date().naive_local()` (here: days since the epoch of the
local time) plus the filtered code/comment sums. -/
structure SimpleEntry where
  timestamp : Int
  code : Nat
  comments : Nat
  deriving DecidableEq, Repr

/-- `timestamp.date().naive_local()`: the calendar date of the local time,
as days since the epoch (floor division of local seconds by 86400). -/
def dateOf (ts : DateTimeFO) : Int := (ts.utcSeconds + ts.offsetSeconds).fdiv 86400

/-- `Entry::filtered` of `src/models.rs`: the statistics of the files whose
language is in the filter set. -/
def Entry.filtered (e : Entry) (filter : Finset Lang) : Multiset CodeStats :=
  (e.files.entries.filter fun x => x.2.language ∈ filter).map fun x => x.2.statistics

/-- The aggregation fold of `load_data`:
`.fold((0, 0), |acc, cs| (acc.0 + cs.code, acc.1 + cs.comments))`. -/
def filteredSums (e : Entry) (filter : Finset Lang) : Nat × Nat :=
  ((e.filtered filter).map fun cs => (cs.code, cs.comments)).sum

/-- The `SimpleEntry` built from one decoded snapshot record. -/
def simpleOf (filter : Finset Lang) (e : Entry) : SimpleEntry :=
  ⟨dateOf e.timestamp, (filteredSums e filter).1, (filteredSums e filter).2⟩

/-- Errors of the load path, the spec's taxonomy: `archiveCorrupt` when an
entry's declared record count disagrees with the bytes present (the stream
ends before `count` records were decoded), `decodeError` for a malformed
serialized record. -/
inductive LoadErr where
  | archiveCorrupt
  | decodeError
  deriving DecidableEq, Repr

/-- One `stats-XXX` archive entry after decompression: the length-prefixed
record count at the head of the stream, followed by the serialized records
actually present (`none` marks bytes that fail to decode as an `Entry`). -/
structure ChunkPayload where
  declared : Nat
  records : List (Option Entry)
  deriving DecidableEq

/-- The inner decode loop of `load_data`: read exactly `declared` records
from the stream front.  Running out of records is the count/size
disagreement; a malformed record is a decode failure.  Records beyond the
declared count are never read (`allow_trailing_bytes`). -/
def decodeRecords (filter : Finset Lang) :
    Nat → List (Option Entry) → Except LoadErr (List SimpleEntry)
  | 0, _ => .ok []
  | _ + 1, [] => .error .archiveCorrupt
  | _ + 1, none :: _ => .error .decodeError
  | n + 1, some e :: rest => (decodeRecords filter n rest).map (simpleOf filter e :: ·)

/-- Decode one archive entry: read its record count, then that many
records. -/
def decodeChunk (filter : Finset Lang) (c : ChunkPayload) :
    Except LoadErr (List SimpleEntry) :=
  decodeRecords filter c.declared c.records

/-- The archive: the `info` entry's total record count (used only to size
the progress bar) plus the `stats-XXX` entries in container order. -/
structure Archive where
  info : Nat
  chunks : List ChunkPayload

/-- Sequentially decode a list of archive entries in order, concatenating
their points; the first failure aborts the load. -/
def loadChunks (filter : Finset Lang) :
    List ChunkPayload → Except LoadErr (List SimpleEntry)
  | [] => .ok []
  | c :: cs =>
    match decodeChunk filter c with
    | .error e => .error e
    | .ok l =>
      match loadChunks filter cs with
      | .error e => .error e
      | .ok ls => .ok (l ++ ls)

/-- `load_data` of `src/render.rs` (lines 95-150), single-threaded
reference semantics: decode entries `1..N` in ascending container order and
concatenate their per-snapshot points in decode order. -/
def load_data (filter : Finset Lang) (a : Archive) :
    Except LoadErr (List SimpleEntry) :=
  loadChunks filter a.chunks

/-- The parallel shape of `load_data`: rayon splits the ordered entry range
into contiguous segments, `try_fold` decodes each segment sequentially, and
`try_reduce` concatenates the segment results in the order the segments
occupy in the range — regardless of which segment finishes first. -/
def loadPar (filter : Finset Lang) :
    List (List ChunkPayload) → Except LoadErr (List SimpleEntry)
  | [] => .ok []
  | seg :: segs =>
    match loadChunks filter seg with
    | .error e => .error e
    | .ok l =>
      match loadPar filter segs with
      | .error e => .error e
      | .ok ls => .ok (l ++ ls)

/-- Decidable equality for `Except`, needed to evaluate concrete runs. -/
instance {ε α : Type} [DecidableEq ε] [DecidableEq α] : DecidableEq (Except ε α) :=
  fun x y =>
    match x, y with
    | .ok a, .ok b =>
      if h : a = b then .isTrue (by rw [h]) else
        .isFalse (by intro hc; cases hc; exact h rfl)
    | .error a, .error b =>
      if h : a = b then .isTrue (by rw [h]) else
        .isFalse (by intro hc; cases hc; exact h rfl)
    | .ok _, .error _ => .isFalse (by intro hc; cases hc)
    | .error _, .ok _ => .isFalse (by intro hc; cases hc)

/-! ### Concrete fixtures

A deterministic classifier instance and small repositories, used to
evaluate the embedded code on explicit inputs (spec §8's concrete scenario,
counterexamples, witnesses). -/

/-- Classifier for the spec's 3-commit scenario: `a.py` and `b.py` carry
distinct language tags (the scenario's expected sums require the filter on
`a.py`'s language to exclude `b.py`); stats are determined by content. -/
def clC : Classifier where
  classify s := if s = "a.py" then some "PyA" else if s = "b.py" then some "PyB" else none
  parse _ c := if c = "a1" then ⟨2, 1, 0⟩ else if c = "a2" then ⟨2, 2, 0⟩ else ⟨3, 0, 0⟩

/-- Tree at commit 1: `a.py` with content `a1`. -/
def tr1 : TreeM := Finmap.singleton "a.py" "a1"

/-- Tree at commit 2: `a.py` modified to `a2`, `b.py` added. -/
def tr2 : TreeM := ((∅ : TreeM).insert "a.py" "a2").insert "b.py" "b1"

/-- Tree at commit 3: `a.py` deleted. -/
def tr3 : TreeM := Finmap.singleton "b.py" "b1"

/-- Commit 1 of the scenario (authored at the epoch, UTC). -/
def cm1 : CommitInfo := ⟨0, 0, tr1⟩

/-- Commit 2 of the scenario, one day later. -/
def cm2 : CommitInfo := ⟨86400, 0, tr2⟩

/-- Commit 3 of the scenario, two days after the epoch. -/
def cm3 : CommitInfo := ⟨172800, 0, tr3⟩

/-- Diff of the empty tree against `tr1`. -/
def dl1 : List DeltaOp := [.added "a.py"]

/-- Diff of `tr1` against `tr2`. -/
def dl2 : List DeltaOp := [.modified "a.py", .added "b.py"]

/-- Diff of `tr2` against `tr3`. -/
def dl3 : List DeltaOp := [.deleted "a.py"]

/-- Expected snapshot of commit 1: `{a.py: (2, 1)}`. -/
def exp1 : Entry := ⟨⟨0, 0⟩, Finmap.singleton "a.py" ⟨"PyA", ⟨2, 1, 0⟩⟩⟩

/-- Expected snapshot of commit 2: `{a.py: (2, 2), b.py: (3, 0)}`. -/
def exp2 : Entry :=
  ⟨⟨86400, 0⟩, ((∅ : Files).insert "a.py" ⟨"PyA", ⟨2, 2, 0⟩⟩).insert "b.py" ⟨"PyB", ⟨3, 0, 0⟩⟩⟩

/-- Expected snapshot of commit 3: `{b.py: (3, 0)}`. -/
def exp3 : Entry := ⟨⟨172800, 0⟩, Finmap.singleton "b.py" ⟨"PyB", ⟨3, 0, 0⟩⟩⟩

/-- The filter holding only `a.py`'s language. -/
def filterC : Finset Lang := {"PyA"}

/-- Extension-style witness classifier: `.py` names are Python, `.rs` names
are Rust, anything else is unrecognized; stats are constant. -/
def clW : Classifier where
  classify s := if s = "a.py" then some "Python" else if s = "a.rs" then some "Rust" else none
  parse _ _ := ⟨2, 1, 0⟩

/-- A tree holding only `a.py`. -/
def tPy : TreeM := Finmap.singleton "a.py" "c"

/-- A tree holding only `a.rs`, with the same content as `tPy`'s `a.py`. -/
def tRs : TreeM := Finmap.singleton "a.rs" "c"

/-- A commit whose tree is `tRs`. -/
def cRs : CommitInfo := ⟨0, 0, tRs⟩

/-- The snapshot of `tPy` built from scratch, as an `Entry`. -/
def entryPy : Entry := ⟨⟨0, 0⟩, fromScratch clW tPy⟩

/-- A stale record at an unrecognized path: `a.xyz` mapped to Python stats
(as a rename without re-classification would leave it). -/
def recX : EntryFile := ⟨"Python", ⟨2, 1, 0⟩⟩

/-- A snapshot mapping holding only the stale `a.xyz` record. -/
def filesX : Files := Finmap.singleton "a.xyz" recX

/-- A tree in which `a.xyz` is present (so `tree.get_path` succeeds). -/
def tX : TreeM := Finmap.singleton "a.xyz" "c"

/-- A commit authored at second 100 with a `+02:00` (120-minute) offset. -/
def cm6 : CommitInfo := ⟨100, 120, ∅⟩

/-- The snapshot `commit_stats` produces for `cm6` with no deltas. -/
def e6 : Entry := ⟨⟨100, 7200⟩, ∅⟩

/-- A Python record, as classified at path `a.py`. -/
def recPy : EntryFile := ⟨"Python", ⟨2, 1, 0⟩⟩

/-- A snapshot mapping holding only `a.py ↦ recPy`. -/
def filesPy : Files := Finmap.singleton "a.py" recPy

/-- Archive entry holding the scenario's first snapshot. -/
def chW1 : ChunkPayload := ⟨1, [some exp1]⟩

/-- Archive entry holding the scenario's second and third snapshots. -/
def chW2 : ChunkPayload := ⟨2, [some exp2, some exp3]⟩

/-- A two-entry archive of the scenario's snapshots. -/
def archW : Archive := ⟨3, [chW1, chW2]⟩

/-- An archive whose single entry declares one record but carries two. -/
def arch9 : Archive := ⟨1, [⟨1, [some exp1, some exp2]⟩]⟩

/-! ### Helper lemmas -/

theorem mem_sortKeysM {m : Multiset Path} {p : Path} : p ∈ sortKeysM m ↔ p ∈ m :=
  Quotient.inductionOn m fun l =>
    ((l.perm_insertionSort keyLE).mem_iff).trans Multiset.mem_coe.symm

theorem mem_sortKeys {s : Finset Path} {p : Path} : p ∈ sortKeys s ↔ p ∈ s :=
  mem_sortKeysM

theorem lookup_foldl_insertSome (f : Path → Option EntryFile) (p : Path) :
    ∀ (l : List Path) (m : Files),
      (l.foldl (insertSome f) m).lookup p =
        if p ∈ l ∧ (f p).isSome then f p else m.lookup p := by
  intro l
  induction l with
  | nil => intro m; simp
  | cons a l ih =>
    intro m
    rw [List.foldl_cons, ih]
    by_cases hpa : p = a
    · subst hpa
      cases hf : f p with
      | some r =>
        by_cases hmem : p ∈ l
        · simp [hmem, hf]
        · simp [hmem, hf, insertSome, Finmap.lookup_insert]
      | none => simp [insertSome, hf]
    · have hstep : (insertSome f m a).lookup p = m.lookup p := by
        unfold insertSome
        cases f a with
        | some r => exact Finmap.lookup_insert_of_ne m hpa
        | none => rfl
      rw [hstep]
      exact if_congr (by simp [List.mem_cons, hpa]) rfl rfl

theorem lookup_fromScratch (cl : Classifier) (t : TreeM) (p : Path) :
    (fromScratch cl t).lookup p = scratchRecord cl t p := by
  unfold fromScratch
  rw [lookup_foldl_insertSome]
  by_cases h : (scratchRecord cl t p).isSome
  · have ht : (t.lookup p).isSome := by
      unfold scratchRecord at h
      cases htl : t.lookup p with
      | none => rw [htl] at h; cases h
      | some c => rfl
    have hmem : p ∈ sortKeys t.keys := by
      rw [mem_sortKeys, Finmap.mem_keys, ← Finmap.lookup_isSome]; exact ht
    rw [if_pos ⟨hmem, h⟩]
  · rw [if_neg (by rintro ⟨-, h2⟩; exact h h2), Finmap.lookup_empty,
      (Option.not_isSome_iff_eq_none.mp h)]

theorem erase_of_lookup_none {S : Files} {p : Path} (h : S.lookup p = none) :
    S.erase p = S :=
  Finmap.ext_lookup fun q => by
    by_cases hq : q = p
    · subst hq; rw [Finmap.lookup_erase, h]
    · rw [Finmap.lookup_erase_ne hq]

theorem lookup_applyDelta_of_not_mentioned {cl : Classifier} {t : TreeM}
    {files files' : Files} {d : DeltaOp} {p : Path}
    (hok : applyDelta cl t files d = .ok files') (hp : p ∉ d.mentions) :
    files'.lookup p = files.lookup p := by
  cases d with
  | added q =>
    have hpq : p ≠ q := by simpa [DeltaOp.mentions] using hp
    simp only [applyDelta] at hok
    split at hok
    · cases hok
    · split at hok
      · cases hok
        exact Finmap.lookup_insert_of_ne files hpq
      · cases hok
        rfl
  | modified q =>
    have hpq : p ≠ q := by simpa [DeltaOp.mentions] using hp
    simp only [applyDelta] at hok
    split at hok
    · cases hok
    · split at hok
      · cases hok
        exact Finmap.lookup_insert_of_ne files hpq
      · cases hok
        rfl
  | deleted q =>
    have hpq : p ≠ q := by simpa [DeltaOp.mentions] using hp
    simp only [applyDelta] at hok
    cases hok
    exact Finmap.lookup_erase_ne hpq
  | renamed o n =>
    have hpo : p ≠ o ∧ p ≠ n := by simpa [DeltaOp.mentions] using hp
    simp only [applyDelta] at hok
    split at hok
    · cases hok
    · cases hok
      rw [Finmap.lookup_insert_of_ne _ hpo.2, Finmap.lookup_erase_ne hpo.1]
  | copied o n =>
    have hpo : p ≠ o ∧ p ≠ n := by simpa [DeltaOp.mentions] using hp
    simp only [applyDelta] at hok
    split at hok
    · cases hok
    · cases hok
      rw [Finmap.lookup_insert_of_ne _ hpo.2]

theorem lookup_applyDeltas_of_not_mentioned {cl : Classifier} {t : TreeM} :
    ∀ {D : List DeltaOp} {files files' : Files} {p : Path},
      applyDeltas cl t files D = .ok files' → (∀ d ∈ D, p ∉ d.mentions) →
      files'.lookup p = files.lookup p := by
  intro D
  induction D with
  | nil =>
    intro files files' p hok _
    cases hok
    rfl
  | cons d ds ih =>
    intro files files' p hok hp
    simp only [applyDeltas] at hok
    cases hd : applyDelta cl t files d with
    | error e =>
      simp only [hd] at hok
      cases hok
    | ok fm =>
      simp only [hd] at hok
      rw [ih hok fun d' hd' => hp d' (List.mem_cons_of_mem _ hd'),
        lookup_applyDelta_of_not_mentioned hd (hp d (List.mem_cons_self _ _))]

theorem fromScratch_empty (cl : Classifier) : fromScratch cl ∅ = ∅ :=
  Finmap.ext_lookup fun p => by
    rw [lookup_fromScratch]
    simp [scratchRecord, Finmap.lookup_empty]

/-- The heart of diff/replay equivalence: applying a delta list that
contains only `Added`/`Modified`/`Deleted` deltas consistent with `t1 → t2`
turns any map that already agrees with the from-scratch build of `t2` on
the unmentioned paths (and holds nothing at unrecognized paths) into
exactly the from-scratch build of `t2`. -/
theorem applyDeltas_toScratch (cl : Classifier) (t1 t2 : TreeM) :
    ∀ (D : List DeltaOp) (S : Files),
      (∀ d ∈ D, d.isAMD) → (∀ d ∈ D, d.consistent t1 t2) →
      (∀ p, (∀ d ∈ D, p ∉ d.mentions) → S.lookup p = (fromScratch cl t2).lookup p) →
      (∀ p, cl.classify (fileName p) = none → S.lookup p = none) →
      applyDeltas cl t2 S D = .ok (fromScratch cl t2) := by
  intro D
  induction D with
  | nil =>
    intro S _ _ hS _
    simp only [applyDeltas]
    exact congrArg Except.ok
      (Finmap.ext_lookup fun p => hS p fun d hd => absurd hd (List.not_mem_nil d))
  | cons d ds ih =>
    intro S hk hc hS hB
    have hk' : ∀ d' ∈ ds, d'.isAMD := fun d' h => hk d' (List.mem_cons_of_mem _ h)
    have hc' : ∀ d' ∈ ds, d'.consistent t1 t2 := fun d' h => hc d' (List.mem_cons_of_mem _ h)
    have hdc := hc d (List.mem_cons_self _ _)
    cases d with
    | added q =>
      simp only [DeltaOp.consistent] at hdc
      obtain ⟨c, hq2⟩ := Option.isSome_iff_exists.mp hdc.2
      cases hcl : cl.classify (fileName q) with
      | some lang =>
        simp only [applyDeltas, applyDelta, hq2, hcl]
        apply ih _ hk' hc'
        · intro p hp
          by_cases hpq : p = q
          · subst hpq
            rw [Finmap.lookup_insert, lookup_fromScratch]
            simp [scratchRecord, hq2, hcl]
          · rw [Finmap.lookup_insert_of_ne _ hpq]
            refine hS p fun d' hd' => ?_
            rcases List.mem_cons.mp hd' with rfl | hmem
            · simpa [DeltaOp.mentions] using hpq
            · exact hp d' hmem
        · intro p hcn
          by_cases hpq : p = q
          · subst hpq; rw [hcn] at hcl; cases hcl
          · rw [Finmap.lookup_insert_of_ne _ hpq]; exact hB p hcn
      | none =>
        simp only [applyDeltas, applyDelta, hq2, hcl]
        apply ih _ hk' hc'
        · intro p hp
          by_cases hpq : p = q
          · subst hpq
            rw [hB p hcl, lookup_fromScratch]
            simp [scratchRecord, hq2, hcl]
          · refine hS p fun d' hd' => ?_
            rcases List.mem_cons.mp hd' with rfl | hmem
            · simpa [DeltaOp.mentions] using hpq
            · exact hp d' hmem
        · exact hB
    | modified q =>
      simp only [DeltaOp.consistent] at hdc
      obtain ⟨c, hq2⟩ := Option.isSome_iff_exists.mp hdc.2
      cases hcl : cl.classify (fileName q) with
      | some lang =>
        simp only [applyDeltas, applyDelta, hq2, hcl]
        apply ih _ hk' hc'
        · intro p hp
          by_cases hpq : p = q
          · subst hpq
            rw [Finmap.lookup_insert, lookup_fromScratch]
            simp [scratchRecord, hq2, hcl]
          · rw [Finmap.lookup_insert_of_ne _ hpq]
            refine hS p fun d' hd' => ?_
            rcases List.mem_cons.mp hd' with rfl | hmem
            · simpa [DeltaOp.mentions] using hpq
            · exact hp d' hmem
        · intro p hcn
          by_cases hpq : p = q
          · subst hpq; rw [hcn] at hcl; cases hcl
          · rw [Finmap.lookup_insert_of_ne _ hpq]; exact hB p hcn
      | none =>
        simp only [applyDeltas, applyDelta, hq2, hcl]
        apply ih _ hk' hc'
        · intro p hp
          by_cases hpq : p = q
          · subst hpq
            rw [hB p hcl, lookup_fromScratch]
            simp [scratchRecord, hq2, hcl]
          · refine hS p fun d' hd' => ?_
            rcases List.mem_cons.mp hd' with rfl | hmem
            · simpa [DeltaOp.mentions] using hpq
            · exact hp d' hmem
        · exact hB
    | deleted q =>
      simp only [DeltaOp.consistent] at hdc
      have hq2 : t2.lookup q = none := hdc.2
      simp only [applyDeltas, applyDelta]
      apply ih _ hk' hc'
      · intro p hp
        by_cases hpq : p = q
        · subst hpq
          rw [Finmap.lookup_erase, lookup_fromScratch]
          simp [scratchRecord, hq2]
        · rw [Finmap.lookup_erase_ne hpq]
          refine hS p fun d' hd' => ?_
          rcases List.mem_cons.mp hd' with rfl | hmem
          · simpa [DeltaOp.mentions] using hpq
          · exact hp d' hmem
      · intro p hcn
        by_cases hpq : p = q
        · subst hpq; rw [Finmap.lookup_erase]
        · rw [Finmap.lookup_erase_ne hpq]; exact hB p hcn
    | renamed o n => exact (hk _ (List.mem_cons_self _ _)).elim
    | copied o n => exact (hk _ (List.mem_cons_self _ _)).elim

/-- A valid diff out of the empty tree can only contain `Added` deltas. -/
theorem validDiff_empty_isAMD {t : TreeM} {D : List DeltaOp}
    (h : ValidDiff ∅ t D) : ∀ d ∈ D, d.isAMD := by
  intro d hd
  have hc := h.1 d hd
  cases d with
  | added q => trivial
  | modified q => simp [DeltaOp.consistent, Finmap.lookup_empty] at hc
  | deleted q => simp [DeltaOp.consistent, Finmap.lookup_empty] at hc
  | renamed o n => simp [DeltaOp.consistent, Finmap.lookup_empty] at hc
  | copied o n => simp [DeltaOp.consistent, Finmap.lookup_empty] at hc

/-- Replay of a valid `Added`/`Modified`/`Deleted`-only diff advances the
from-scratch build of `t1` to the from-scratch build of `t2`. -/
theorem applyDeltas_validDiff (cl : Classifier) {t1 t2 : TreeM} {D : List DeltaOp}
    (hv : ValidDiff t1 t2 D) (hk : ∀ d ∈ D, d.isAMD) :
    applyDeltas cl t2 (fromScratch cl t1) D = .ok (fromScratch cl t2) := by
  apply applyDeltas_toScratch cl t1 t2 D _ hk hv.1
  · intro p hp
    have heq : t1.lookup p = t2.lookup p := by
      by_contra hne
      obtain ⟨d, hd, hmem⟩ := hv.2 p hne
      exact hp d hd hmem
    rw [lookup_fromScratch, lookup_fromScratch]
    unfold scratchRecord
    rw [heq]
  · intro p hcn
    rw [lookup_fromScratch]
    simp only [scratchRecord, hcn, Option.map_none']
    cases t1.lookup p <;> rfl

theorem lookup_singleton_ne {β : Type} {p a : Path} {b : β} (h : p ≠ a) :
    (Finmap.singleton a b : Finmap fun _ : Path => β).lookup p = none := by
  cases hl : (Finmap.singleton a b : Finmap fun _ : Path => β).lookup p with
  | none => rfl
  | some v =>
    have hm : p ∈ (Finmap.singleton a b : Finmap fun _ : Path => β) := by
      rw [← Finmap.lookup_isSome, hl]; rfl
    exact absurd ((Finmap.mem_singleton p a b).mp hm) h

theorem validDiff_empty_singleton (a : Path) (b : Content) :
    ValidDiff ∅ (Finmap.singleton a b) [.added a] := by
  constructor
  · intro d hd
    rw [List.mem_singleton] at hd
    subst hd
    exact ⟨Finmap.lookup_empty a, by rw [Finmap.lookup_singleton_eq]; rfl⟩
  · intro p hne
    by_cases hp : p = a
    · exact ⟨.added a, List.mem_singleton.mpr rfl, by simp [DeltaOp.mentions, hp]⟩
    · exact absurd (by rw [Finmap.lookup_empty, lookup_singleton_ne hp]) hne

theorem loadChunks_append (filter : Finset Lang) (xs ys : List ChunkPayload) :
    loadChunks filter (xs ++ ys) =
      match loadChunks filter xs with
      | .error e => .error e
      | .ok l =>
        match loadChunks filter ys with
        | .error e => .error e
        | .ok ls => .ok (l ++ ls) := by
  induction xs with
  | nil =>
    simp only [List.nil_append, loadChunks]
    cases loadChunks filter ys with
    | error e => rfl
    | ok ls => simp
  | cons c cs ih =>
    cases hd : decodeChunk filter c with
    | error e => simp only [List.cons_append, loadChunks, hd]
    | ok l =>
      simp only [List.cons_append, loadChunks, hd, List.append_eq, ih]
      cases loadChunks filter cs with
      | error e => rfl
      | ok l2 =>
        cases loadChunks filter ys with
        | error e => rfl
        | ok l3 => simp

theorem loadPar_eq_loadChunks (filter : Finset Lang) :
    ∀ segs : List (List ChunkPayload),
      loadPar filter segs = loadChunks filter segs.flatten := by
  intro segs
  induction segs with
  | nil => rfl
  | cons s ss ih => simp only [loadPar, ih, List.flatten_cons, loadChunks_append]

/-- A chunk entry on which decoding fails: fewer records present than the
declared count, or a malformed record among the first `declared` ones. -/
def chunkBad (c : ChunkPayload) : Prop :=
  c.records.length < c.declared ∨ none ∈ c.records.take c.declared

theorem decodeRecords_error_iff (filter : Finset Lang) :
    ∀ (n : Nat) (rs : List (Option Entry)),
      (∃ e, decodeRecords filter n rs = .error e) ↔
        (rs.length < n ∨ none ∈ rs.take n) := by
  intro n
  induction n with
  | zero => intro rs; simp [decodeRecords]
  | succ n ih =>
    intro rs
    cases rs with
    | nil => simp [decodeRecords]
    | cons r rest =>
      cases r with
      | none => simp [decodeRecords]
      | some e =>
        simp only [decodeRecords]
        cases hd : decodeRecords filter n rest with
        | error e2 =>
          have hr := (ih rest).mp ⟨e2, hd⟩
          simp only [Except.map, List.length_cons, Nat.succ_lt_succ_iff, List.take_succ_cons,
            List.mem_cons]
          constructor
          · intro _; rcases hr with h | h
            · exact Or.inl h
            · exact Or.inr (Or.inr h)
          · intro _; exact ⟨e2, rfl⟩
        | ok l =>
          have hr : ¬(rest.length < n ∨ none ∈ rest.take n) := fun h => by
            obtain ⟨e', he'⟩ := (ih rest).mpr h
            rw [he'] at hd
            cases hd
          simp only [Except.map, List.length_cons, Nat.succ_lt_succ_iff, List.take_succ_cons,
            List.mem_cons]
          constructor
          · rintro ⟨e', he'⟩; cases he'
          · rintro (h | h | h)
            · exact absurd (Or.inl h) hr
            · cases h
            · exact absurd (Or.inr h) hr

theorem decodeChunk_error_iff (filter : Finset Lang) (c : ChunkPayload) :
    (∃ e, decodeChunk filter c = .error e) ↔ chunkBad c :=
  decodeRecords_error_iff filter c.declared c.records

theorem loadChunks_error_iff (filter : Finset Lang) :
    ∀ cs : List ChunkPayload,
      (∃ e, loadChunks filter cs = .error e) ↔ ∃ c ∈ cs, chunkBad c := by
  intro cs
  induction cs with
  | nil => simp [loadChunks]
  | cons c cs ih =>
    simp only [loadChunks]
    cases hd : decodeChunk filter c with
    | error e =>
      have hbad : chunkBad c := (decodeChunk_error_iff filter c).mp ⟨e, hd⟩
      constructor
      · intro _; exact ⟨c, List.mem_cons_self _ _, hbad⟩
      · intro _; exact ⟨e, rfl⟩
    | ok l =>
      have hgood : ¬chunkBad c := fun h => by
        obtain ⟨e, he⟩ := (decodeChunk_error_iff filter c).mpr h
        rw [he] at hd
        cases hd
      cases hl : loadChunks filter cs with
      | error e2 =>
        have hcs := ih.mp ⟨e2, hl⟩
        constructor
        · intro _
          obtain ⟨c', hc', hbad⟩ := hcs
          exact ⟨c', List.mem_cons_of_mem _ hc', hbad⟩
        · intro _; exact ⟨e2, rfl⟩
      | ok l2 =>
        have h2 : ¬∃ c' ∈ cs, chunkBad c' := fun h => by
          obtain ⟨e, he⟩ := ih.mpr h
          rw [he] at hl
          cases hl
        constructor
        · rintro ⟨e, he⟩; cases he
        · rintro ⟨c', hc', hbad⟩
          rcases List.mem_cons.mp hc' with rfl | hmem
          · exact absurd hbad hgood
          · exact absurd ⟨c', hmem, hbad⟩ h2

theorem validDiff_rename_py_rs : ValidDiff tPy tRs [.renamed "a.py" "a.rs"] := by
  constructor
  · intro d hd
    rw [List.mem_singleton] at hd
    subst hd
    simp only [DeltaOp.consistent, tPy, tRs]
    refine ⟨lookup_singleton_ne (by decide), lookup_singleton_ne (by decide), "c", ?_, ?_⟩
    · exact Finmap.lookup_singleton_eq
    · exact Finmap.lookup_singleton_eq
  · intro p hne
    by_cases h1 : p = "a.py"
    · exact ⟨.renamed "a.py" "a.rs", List.mem_singleton.mpr rfl,
        by simp [DeltaOp.mentions, h1]⟩
    · by_cases h2 : p = "a.rs"
      · exact ⟨.renamed "a.py" "a.rs", List.mem_singleton.mpr rfl,
          by simp [DeltaOp.mentions, h2]⟩
      · refine absurd ?_ hne
        simp only [tPy, tRs]
        rw [lookup_singleton_ne h1, lookup_singleton_ne h2]

/-! ### Claim theorems -/

/-- Claim C1, counterexample: diff/replay equivalence fails for the
`Renamed` delta kind.  With a classifier distinguishing `.py` from `.rs`,
advancing the from-scratch snapshot of `{a.py ↦ c}` by the valid diff
`[Renamed a.py a.rs]` keeps the Python record at `a.rs`, while building the
tree `{a.rs ↦ c}` from scratch (everything `Added`) classifies it as Rust —
the two file mappings differ. -/
theorem diff_replay_equivalence_renamed_cex :
    ValidDiff tPy tRs [.renamed "a.py" "a.rs"] ∧
    ValidDiff ∅ tRs [.added "a.rs"] ∧
    entryPy.files = fromScratch clW tPy ∧
    (commit_stats clW cRs (some entryPy) [.renamed "a.py" "a.rs"]).map (fun r => r.1.files)
      ≠ (commit_stats clW cRs none [.added "a.rs"]).map (fun r => r.1.files) :=
  ⟨validDiff_rename_py_rs, validDiff_empty_singleton "a.rs" "c", rfl, by decide⟩

/-- Claim C1, amended: for a commit with an immediately preceding commit in
the chunk, the files mapping produced by advancing incrementally (builder
called with the previous snapshot and a valid diff against the previous
tree) equals the files mapping produced by building the commit from scratch
(builder called with previous snapshot `None` and a valid diff out of the
empty tree, every file treated as `Added`) — provided the incremental diff
contains only `Added`/`Modified`/`Deleted` deltas, the kinds the code's
diff configuration (no rename/copy detection) produces.  With `Renamed` or
`Copied` deltas the equality can fail, since those move records without
re-classification. -/
theorem diff_replay_equivalence_amd (cl : Classifier) (c : CommitInfo) (t1 : TreeM)
    (D D0 : List DeltaOp) (prevE : Entry)
    (hD : ValidDiff t1 c.tree D) (hk : ∀ d ∈ D, d.isAMD)
    (hD0 : ValidDiff ∅ c.tree D0) (hprev : prevE.files = fromScratch cl t1) :
    (commit_stats cl c (some prevE) D).map (fun r => r.1.files)
      = (commit_stats cl c none D0).map (fun r => r.1.files) := by
  have h1 : applyDeltas cl c.tree prevE.files D = .ok (fromScratch cl c.tree) := by
    rw [hprev]
    exact applyDeltas_validDiff cl hD hk
  have h0 : applyDeltas cl c.tree (∅ : Files) D0 = .ok (fromScratch cl c.tree) := by
    have h := applyDeltas_validDiff cl hD0 (validDiff_empty_isAMD hD0)
    rwa [fromScratch_empty] at h
  simp only [commit_stats, Option.map_some', Option.getD_some, Option.map_none',
    Option.getD_none, h1, h0, Except.map]

/-- Witness for C1 (amended): a concrete one-commit advance where both the
incremental run and the from-scratch run yield the same mapping. -/
theorem diff_replay_equivalence_amd_witness :
    (commit_stats clW ⟨0, 0, tPy⟩ (some ⟨⟨0, 0⟩, ∅⟩) [.added "a.py"]).map (fun r => r.1.files)
      = (commit_stats clW ⟨0, 0, tPy⟩ none [.added "a.py"]).map (fun r => r.1.files) :=
  diff_replay_equivalence_amd clW ⟨0, 0, tPy⟩ ∅ [.added "a.py"] [.added "a.py"] ⟨⟨0, 0⟩, ∅⟩
    (validDiff_empty_singleton "a.py" "c") (by
      intro d hd
      rw [List.mem_singleton] at hd
      subst hd
      trivial)
    (validDiff_empty_singleton "a.py" "c") (fromScratch_empty clW).symm

/-- Claim C2: the spec's concrete 3-commit scenario.  Scanning the chunk
produces exactly the snapshots `{a.py:(2,1)}`, `{a.py:(2,2), b.py:(3,0)}`,
`{b.py:(3,0)}`, and loading an archive of those snapshots with the filter
set to `a.py`'s language alone yields code sums `[2,2,0]` and comment sums
`[1,2,0]`. -/
theorem three_commit_scenario :
    scanChunk clC [(cm1, dl1), (cm2, dl2), (cm3, dl3)] none = .ok [exp1, exp2, exp3] ∧
    load_data filterC ⟨3, [⟨3, [some exp1, some exp2, some exp3]⟩]⟩
      = .ok [⟨0, 2, 1⟩, ⟨1, 2, 2⟩, ⟨2, 0, 0⟩] := by
  constructor
  · decide
  · decide

/-- Claim C3: frame property of one advance step — every path that is
neither the old nor the new path of any delta of the applied diff keeps
exactly its previous record (present with the same language and stats, or
absent). -/
theorem applyDeltas_frame (cl : Classifier) (t : TreeM) (S S' : Files)
    (D : List DeltaOp) (p : Path) (hok : applyDeltas cl t S D = .ok S')
    (hp : ∀ d ∈ D, p ∉ d.mentions) : S'.lookup p = S.lookup p :=
  lookup_applyDeltas_of_not_mentioned hok hp

/-- Witness for C3: adding `a.rs` leaves the unrelated `a.xyz` record
untouched. -/
theorem applyDeltas_frame_witness :
    (filesX.insert "a.rs" ⟨"Rust", ⟨2, 1, 0⟩⟩).lookup "a.xyz" = filesX.lookup "a.xyz" :=
  applyDeltas_frame clW tRs filesX (filesX.insert "a.rs" ⟨"Rust", ⟨2, 1, 0⟩⟩)
    [.added "a.rs"] "a.xyz" (by decide) (by decide)

/-- Claim C4: a `Deleted` delta whose old path is absent from the snapshot
is a silent no-op (mapping unchanged, no error), while `Renamed` and
`Copied` deltas whose old path is absent abort with a fatal error. -/
theorem deleted_absent_noop_renamed_copied_fatal (cl : Classifier) (t : TreeM)
    (S : Files) (p q : Path) (h : S.lookup p = none) :
    applyDelta cl t S (.deleted p) = .ok S ∧
    applyDelta cl t S (.renamed p q) = .error (.snapshotPathMissing p) ∧
    applyDelta cl t S (.copied p q) = .error (.snapshotPathMissing p) := by
  refine ⟨?_, ?_, ?_⟩
  · simp only [applyDelta]
    rw [erase_of_lookup_none h]
  · simp only [applyDelta, h]
  · simp only [applyDelta, h]

/-- Witness for C4 at a concrete absent path. -/
theorem deleted_absent_noop_renamed_copied_fatal_witness :
    applyDelta clW tRs filesX (.deleted "b.py") = .ok filesX ∧
    applyDelta clW tRs filesX (.renamed "b.py" "c.py") = .error (.snapshotPathMissing "b.py") ∧
    applyDelta clW tRs filesX (.copied "b.py" "c.py") = .error (.snapshotPathMissing "b.py") :=
  deleted_absent_noop_renamed_copied_fatal clW tRs filesX "b.py" "c.py" (by decide)

/-- Claim C5, counterexample: a `Modified` delta at a path the classifier
does not recognize does not drop the previously present record — the
mapping still contains the stale record afterwards, contradicting the
claimed exclusion. -/
theorem unrecognized_modified_retains_record :
    clW.classify (fileName "a.xyz") = none ∧
    filesX.lookup "a.xyz" = some recX ∧
    applyDelta clW tX filesX (.modified "a.xyz") = .ok filesX ∧
    filesX.lookup "a.xyz" ≠ none := by
  refine ⟨by decide, by decide, by decide, by decide⟩

/-- Claim C5, amended: an `Added` or `Modified` delta whose new path the
classifier does not recognize is skipped as a no-op — nothing is inserted,
so a previously absent path stays absent, but a previously present record
is retained unchanged rather than dropped. -/
theorem unrecognized_addmod_noop (cl : Classifier) (t : TreeM) (S : Files)
    (p : Path) (c : Content) (htree : t.lookup p = some c)
    (hcl : cl.classify (fileName p) = none) :
    applyDelta cl t S (.added p) = .ok S ∧ applyDelta cl t S (.modified p) = .ok S := by
  constructor <;> simp only [applyDelta, htree, hcl]

/-- Witness for C5 (amended) at the concrete unrecognized path `a.xyz`. -/
theorem unrecognized_addmod_noop_witness :
    applyDelta clW tX filesX (.added "a.xyz") = .ok filesX ∧
    applyDelta clW tX filesX (.modified "a.xyz") = .ok filesX :=
  unrecognized_addmod_noop clW tX filesX "a.xyz" "c" (by decide) (by decide)

/-- Claim C6: every snapshot the builder produces carries the commit's
authoring time in a fixed offset — the UTC seconds recorded with the
commit, at an offset of `offset_minutes * 60` seconds. -/
theorem timestamp_fixed_offset (cl : Classifier) (c : CommitInfo)
    (prev : Option Entry) (D : List DeltaOp) (e : Entry) (t : TreeM)
    (h : commit_stats cl c prev D = .ok (e, t)) :
    e.timestamp = ⟨c.timeSeconds, c.offsetMinutes * 60⟩ := by
  simp only [commit_stats] at h
  split at h
  · cases h
    rfl
  · cases h

/-- Witness for C6: a commit at second 100 with a 120-minute offset yields
the timestamp `⟨100, 7200⟩`. -/
theorem timestamp_fixed_offset_witness :
    e6.timestamp = ⟨cm6.timeSeconds, cm6.offsetMinutes * 60⟩ :=
  timestamp_fixed_offset clW cm6 none [] e6 ∅ (by decide)

/-- Claim C7: order preservation of the parallel load — for any split of
the archive's entries into contiguous segments (the shape rayon's
`try_fold`/`try_reduce` gives the index range, whatever the wall-clock
completion order), the merged result equals the sequential decode of the
entries in ascending container order. -/
theorem load_data_order_preserving (filter : Finset Lang) (a : Archive)
    (segs : List (List ChunkPayload)) (h : segs.flatten = a.chunks) :
    loadPar filter segs = load_data filter a := by
  rw [loadPar_eq_loadChunks, h]
  rfl

/-- Witness for C7: a two-segment split of a concrete two-entry archive. -/
theorem load_data_order_preserving_witness :
    loadPar filterC [[chW1], [chW2]] = load_data filterC archW :=
  load_data_order_preserving filterC archW [[chW1], [chW2]] (by decide)

/-- Claim C8, evaluated at the failing input: a history of 1,000,001
commits realizes 1001 chunks, and the fixed-width `stats-{:03}` names then
sort out of chunk-index order — the entry of chunk 1000 sorts before the
entry of chunk 101 although `101 < 1000`, so the assembled container's
stats entries are not in chronological chunk order. -/
theorem chunk_naming_defect :
    chunkCount 1000001 = 1001 ∧ (101 : Nat) < 1000 ∧ chunkName 1000 < chunkName 101 := by
  refine ⟨by decide, by decide, ?_⟩
  rw [String.lt_iff_toList_lt]
  decide

/-- Claim C9, counterexample: an archive entry carrying more serialized
records than its declared count loads successfully — the trailing record is
silently ignored (`allow_trailing_bytes`) instead of failing. -/
theorem extra_records_ignored :
    (1 : Nat) < [some exp1, some exp2].length ∧
    load_data filterC arch9 = .ok [⟨0, 2, 1⟩] := by
  refine ⟨by decide, by decide⟩

/-- Claim C9, amended: loading fails with an error exactly when some stats
entry holds fewer serialized records than its declared count, or a
malformed record among the first `declared` ones; entries with more records
than declared are accepted with the extras ignored. -/
theorem archive_count_mismatch_error_iff (filter : Finset Lang) (a : Archive) :
    (∃ e, load_data filter a = .error e) ↔ ∃ c ∈ a.chunks, chunkBad c :=
  loadChunks_error_iff filter a.chunks

/-- Claim C10: `Renamed` and `Copied` deltas move the stored record to the
new path verbatim — the language tag computed from the old path's file name
is kept and the classifier is never consulted for the new path. -/
theorem rename_copy_no_reclassify (cl : Classifier) (t : TreeM) (S : Files)
    (o n : Path) (v : EntryFile) (h : S.lookup o = some v) :
    applyDelta cl t S (.renamed o n) = .ok ((S.erase o).insert n v) ∧
    applyDelta cl t S (.copied o n) = .ok (S.insert n v) := by
  constructor <;> simp only [applyDelta, h]

/-- Witness for C10: renaming `a.py` to `a.rs` keeps the Python record at
`a.rs`, although the classifier maps `a.rs` to Rust. -/
theorem rename_copy_no_reclassify_witness :
    (applyDelta clW tRs filesPy (.renamed "a.py" "a.rs")
        = .ok ((filesPy.erase "a.py").insert "a.rs" recPy) ∧
      applyDelta clW tRs filesPy (.copied "a.py" "a.rs")
        = .ok (filesPy.insert "a.rs" recPy)) ∧
    clW.classify (fileName "a.rs") = some "Rust" ∧ recPy.language = "Python" :=
  ⟨rename_copy_no_reclassify clW tRs filesPy "a.py" "a.rs" recPy (by decide),
    by decide, by decide⟩

end CommentStats
